import Mathlib

/-!
Verification development for the knowledge-base retrieval engine in
`src-tauri/src/rag/mod.rs` (chunker, embedder state, collection store,
cosine similarity, ranked search).

Modelling conventions:
* Rust strings (`&str`, `String`) are lists of characters (`List Char`);
* `usize` is `Nat`, so `usize::saturating_sub` is exactly `Nat` subtraction;
* `f32` is modelled as `ℝ` (exact arithmetic; rounding is out of scope);
* fallible operations return `Option` (`none` = the Rust `Err`/`None` path);
* the per-bucket on-disk store (`chunks.json`) is a value of type
  `Option FileData` (`none` = file missing);
* loops that the Rust source runs unboundedly are given an explicit fuel
  parameter, with `none` meaning the loop did not finish within the fuel.
-/

/-- Whitespace test on characters (Rust `char::is_whitespace`). -/
def isWs (c : Char) : Bool := c.isWhitespace

/-- Accumulator-based splitter modelling Rust `str::split_whitespace`:
splits on whitespace characters and discards empty pieces.  The accumulator
holds the characters of the current word in reverse order. -/
def splitWsAux : List Char → List Char → List (List Char)
  | [], acc => if acc = [] then [] else [acc.reverse]
  | c :: cs, acc =>
    if isWs c then
      if acc = [] then splitWsAux cs [] else acc.reverse :: splitWsAux cs []
    else splitWsAux cs (c :: acc)

/-- Model of `text.split_whitespace().collect::<Vec<_>>()`. -/
def splitWs (s : List Char) : List (List Char) := splitWsAux s []

/-- Model of Rust `str::trim`: drop whitespace from both ends. -/
def trimStr (s : List Char) : List Char :=
  ((s.dropWhile isWs).reverse.dropWhile isWs).reverse

/-- Model of the `while i < words.len()` loop of `chunk_text`
(`src-tauri/src/rag/mod.rs` lines 140-153), with explicit fuel; `none` means
the loop has not terminated within `fuel` iterations.  Each iteration takes
the word slice `[i, min (i + chunkSize) words.length)`, joins it with single
spaces, pushes it unless it trims to empty, breaks if the slice end reached
the word count, and otherwise advances `i` by `chunkSize - overlap` - which,
as `Nat` (= `usize::saturating_sub`) subtraction, is `0` when
`overlap ≥ chunkSize`. -/
def chunkLoop : Nat → List (List Char) → Nat → Nat → Nat → Option (List (List Char))
  | 0, _, _, _, _ => none
  | fuel + 1, words, chunkSize, overlap, i =>
    if i < words.length then
      let e := min (i + chunkSize) words.length
      let chunk := List.intercalate [' '] ((words.drop i).take (e - i))
      let rest :=
        if words.length ≤ e then some []
        else chunkLoop fuel words chunkSize overlap (i + (chunkSize - overlap))
      match rest with
      | none => none
      | some r => some (if trimStr chunk = [] then r else chunk :: r)
    else some []

/-- Model of `chunk_text` (`src-tauri/src/rag/mod.rs` lines 132-156).
The fuel `words.length + 1` bounds the number of loop iterations; it is
proved below that whenever the advance step is at least one token the loop
terminates within that bound, so `none` signals genuine divergence of the
source loop. -/
def chunk_text (text : List Char) (chunkSize overlap : Nat) : Option (List (List Char)) :=
  let words := splitWs text
  if words = [] then some []
  else chunkLoop (words.length + 1) words chunkSize overlap 0

/-- Spec-side description of the chunker's windows: the list of
`(start, end)` index pairs produced from start index `i`, window width `w`,
advance step `s` (with floor `1`, as the spec demands), over `n` tokens. -/
def spansFrom (n w s i : Nat) : List (Nat × Nat) :=
  if _h : i < n then
    if n ≤ i + w then [(i, n)]
    else (i, i + w) :: spansFrom n w s (i + max s 1)
  else []
termination_by n - i
decreasing_by
  have h1 : 1 ≤ max s 1 := Nat.le_max_right s 1
  omega

/-- Token slice of a span: the tokens with indices in `[p.1, p.2)`. -/
def sliceTokens (words : List (List Char)) (p : Nat × Nat) : List (List Char) :=
  (words.drop p.1).take (p.2 - p.1)

/-- Rendered text of a span: its token slice joined by single spaces. -/
def renderSpan (words : List (List Char)) (p : Nat × Nat) : List Char :=
  List.intercalate [' '] (sliceTokens words p)

/-- Concatenation of token windows de-duplicating the overlap: the first
window in full, then every later window with its first `o` tokens (its
overlap with the predecessor window) removed. -/
def dedupConcat (o : Nat) : List (List (List Char)) → List (List Char)
  | [] => []
  | w0 :: rest => w0 ++ (rest.map (List.drop o)).flatten

/-- Eleven-token input text exhibiting the chunker's divergence. -/
def loopText : List Char := "a b c d e f g h i j k".data

/-- A chunk record persisted in a bucket store (Rust struct `Chunk`,
`src-tauri/src/rag/mod.rs` lines 33-38). -/
structure Chunk where
  content : List Char
  filename : List Char
  embedding : List ℝ

instance : Inhabited Chunk := ⟨⟨[], [], []⟩⟩

/-- On-disk content of a bucket's `chunks.json`: either a complete,
well-formed serialization of a chunk list, or bytes that
`serde_json::from_str` rejects (a partially written or otherwise mangled
file). -/
inductive FileData where
  | valid (chunks : List Chunk)
  | corrupt

/-- Model of `serde_json::from_str::<Vec<Chunk>>`. -/
def deserialize : FileData → Option (List Chunk)
  | FileData.valid cs => some cs
  | FileData.corrupt => none

/-- Load operation of the collection store as the engine performs it
(`chunks_file.exists()` test, then read and deserialize): a missing file
is an empty store, an unreadable one is an error. -/
def loadStore : Option FileData → Option (List Chunk)
  | none => some []
  | some fd => deserialize fd

/-- Model of `store_chunks` (`src-tauri/src/rag/mod.rs` lines 174-219).
`file` is the bucket's `chunks.json` slot (`none` = missing);
`embedResult` is the outcome of `get_embeddings_local` on `texts`
(`none` = embedding failure); `writeOk` says whether the final `fs::write`
succeeds.  Returns the new file slot and a success flag.  Faithful details:
an existing file that fails to deserialize is replaced by `Vec::new()`
via `unwrap_or_default`; the write is a direct in-place `fs::write`
(truncate-then-write), so a failed write leaves a partially written file,
modelled as `FileData.corrupt`, not the previous contents. -/
def store_chunks (file : Option FileData) (filename : List Char)
    (texts : List (List Char)) (embedResult : Option (List (List ℝ)))
    (writeOk : Bool) : Option FileData × Bool :=
  if texts = [] then (file, true)
  else
    match embedResult with
    | none => (file, false)
    | some embeddings =>
      let stored := match file with
        | some fd => (deserialize fd).getD []
        | none => []
      let newChunks := stored ++ (texts.zip embeddings).map
        (fun p => { content := p.1, filename := filename, embedding := p.2 })
      if writeOk then (some (FileData.valid newChunks), true)
      else (some FileData.corrupt, false)

/-- Model of `delete_file_chunks` (`src-tauri/src/rag/mod.rs` lines
221-242): no-op on a missing store, error (`?`) on a store that fails to
deserialize, otherwise retain the records whose filename differs and
persist. -/
def delete_file_chunks (file : Option FileData) (filename : List Char)
    (writeOk : Bool) : Option FileData × Bool :=
  match file with
  | none => (none, true)
  | some fd =>
    match deserialize fd with
    | none => (some fd, false)
    | some chunks =>
      let kept := chunks.filter (fun c => c.filename ≠ filename)
      if writeOk then (some (FileData.valid kept), true)
      else (some FileData.corrupt, false)

/-- Process state relevant to the embedding subsystem: whether the
`CACHE_DIR` `OnceLock` has been set, and how many times
`create_embedding_model` has constructed (loaded) a `TextEmbedding`. -/
structure EmbedState where
  cacheDirSet : Bool
  modelLoads : Nat
deriving DecidableEq

/-- Model of `create_embedding_model` (`src-tauri/src/rag/mod.rs` lines
42-58): reads `CACHE_DIR` (error if never initialized) and constructs a
fresh `TextEmbedding` - counted as one model load. -/
def create_embedding_model (s : EmbedState) : Option EmbedState :=
  if s.cacheDirSet then some { s with modelLoads := s.modelLoads + 1 } else none

/-- Model of `get_embeddings_local` (`src-tauri/src/rag/mod.rs` lines
159-172): an empty batch returns without touching the model; otherwise the
function calls `create_embedding_model` unconditionally, on every call.
The embedding vectors themselves come from the external model and are not
modelled. -/
def get_embeddings_local (texts : List (List Char)) (s : EmbedState) : Option EmbedState :=
  if texts = [] then some s else create_embedding_model s

/-- Dot product as computed by `cosine_similarity`
(`src-tauri/src/rag/mod.rs` line 245): the zip truncates to the shorter
vector, so only the shared index prefix contributes. -/
def dotList (a b : List ℝ) : ℝ := ((a.zip b).map (fun p => p.1 * p.2)).sum

/-- Sum of squares of a vector's components (over its full length). -/
def sumSq (a : List ℝ) : ℝ := (a.map (fun x => x * x)).sum

/-- Vector magnitude (`norm_a`, `norm_b` in the source): square root of the
sum of squares. -/
noncomputable def magnitude (a : List ℝ) : ℝ := Real.sqrt (sumSq a)

/-- Model of `cosine_similarity` (`src-tauri/src/rag/mod.rs` lines 244-254)
with `f32` modelled as `ℝ`: returns `0` when either magnitude is `0`,
otherwise the dot product divided by the product of the magnitudes. -/
noncomputable def cosine_similarity (a b : List ℝ) : ℝ :=
  if magnitude a = 0 ∨ magnitude b = 0 then 0
  else dotList a b / (magnitude a * magnitude b)

/-- Search result row (struct `SearchResult` in
`src-tauri/src/commands/knowledge.rs`): content, filename, score. -/
structure SearchResult where
  content : List Char
  filename : List Char
  score : ℝ

/-- Scoring/ranking core of `search` (`src-tauri/src/rag/mod.rs` lines
300-323): score every chunk by cosine similarity against the query
embedding, sort descending (stable sort with comparator
`b.partial_cmp(&a)`), take the first `topK`, keep only scores strictly
above `0.1`, and project to results. -/
noncomputable def searchCore (chunks : List Chunk) (qe : List ℝ) (topK : Nat) :
    List SearchResult :=
  let scores := chunks.enum.map (fun p => (p.1, cosine_similarity qe p.2.embedding))
  let sorted := scores.mergeSort (fun x y => decide (y.2 ≤ x.2))
  ((sorted.take topK).filter (fun p => decide ((0.1 : ℝ) < p.2))).map
    (fun p => { content := (chunks.getD p.1 default).content,
                filename := (chunks.getD p.1 default).filename,
                score := p.2 })

/-- Model of `search` (`src-tauri/src/rag/mod.rs` lines 256-328).  `file`
is the bucket's `chunks.json` slot (`none` = missing); `embedResult` is the
outcome of embedding the query text (`none` = embedding failure); `none`
overall is an error returned to the caller.  The missing-file and
empty-store checks happen before the query is embedded, exactly as in the
source. -/
noncomputable def search (file : Option FileData) (embedResult : Option (List ℝ))
    (topK : Nat) : Option (List SearchResult) :=
  match file with
  | none => some []
  | some fd =>
    match deserialize fd with
    | none => none
    | some chunks =>
      if chunks.isEmpty then some []
      else
        match embedResult with
        | none => none
        | some qe => some (searchCore chunks qe topK)


lemma splitWsAux_words (s : List Char) :
    ∀ acc, (∀ c ∈ acc, isWs c = false) →
      ∀ w ∈ splitWsAux s acc, w ≠ [] ∧ ∀ c ∈ w, isWs c = false := by
  induction s with
  | nil =>
    intro acc hacc w hw
    by_cases h : acc = []
    · simp [splitWsAux, h] at hw
    · simp only [splitWsAux, if_neg h, List.mem_singleton] at hw
      subst hw
      refine ⟨by simpa using h, ?_⟩
      intro c hc
      exact hacc c (List.mem_reverse.mp hc)
  | cons c cs ih =>
    intro acc hacc w hw
    by_cases hws : isWs c = true
    · by_cases h : acc = []
      · simp only [splitWsAux, hws, if_pos h, if_true] at hw
        exact ih [] (by simp) w hw
      · simp only [splitWsAux, hws, if_true, if_neg h, List.mem_cons] at hw
        rcases hw with hw | hw
        · subst hw
          refine ⟨by simpa using h, ?_⟩
          intro d hd
          exact hacc d (List.mem_reverse.mp hd)
        · exact ih [] (by simp) w hw
    · simp only [splitWsAux, hws, if_false] at hw
      refine ih (c :: acc) ?_ w hw
      intro d hd
      rcases List.mem_cons.mp hd with hd | hd
      · subst hd; simpa using hws
      · exact hacc d hd

lemma splitWs_words (s : List Char) :
    ∀ w ∈ splitWs s, w ≠ [] ∧ ∀ c ∈ w, isWs c = false :=
  splitWsAux_words s [] (by simp)

lemma trimStr_ne_nil {s : List Char} {c : Char} (hc : c ∈ s) (hw : isWs c = false) :
    trimStr s ≠ [] := by
  intro h
  unfold trimStr at h
  rw [List.reverse_eq_nil_iff, List.dropWhile_eq_nil_iff] at h
  have hc1 : c ∈ s.dropWhile isWs := by
    have hsplit := List.takeWhile_append_dropWhile isWs s
    rcases List.mem_append.mp (by rw [hsplit]; exact hc) with h1 | h1
    · have := List.mem_takeWhile_imp h1
      rw [this] at hw
      exact absurd hw (by simp)
    · exact h1
  have := h c (List.mem_reverse.mpr hc1)
  rw [this] at hw
  exact absurd hw (by simp)

lemma mem_intercalate_head {c : Char} {w0 : List Char} (hc : c ∈ w0)
    (rest : List (List Char)) : c ∈ List.intercalate [' '] (w0 :: rest) := by
  cases rest with
  | nil => simpa [List.intercalate] using hc
  | cons w1 ws =>
    have : List.intercalate [' '] (w0 :: w1 :: ws)
        = w0 ++ (' ' :: (List.intersperse [' '] (w1 :: ws)).flatten) := by
      simp [List.intercalate, List.intersperse]
    rw [this]
    exact List.mem_append_left _ hc

lemma trim_slice_ne (words : List (List Char))
    (hwords : ∀ w ∈ words, w ≠ [] ∧ ∀ c ∈ w, isWs c = false)
    (j m : Nat) (hj : j < words.length) (hm : 1 ≤ m) :
    trimStr (List.intercalate [' '] ((words.drop j).take m)) ≠ [] := by
  have hdrop : words.drop j ≠ [] := by
    rw [ne_eq, List.drop_eq_nil_iff]
    omega
  obtain ⟨u, rest, hu⟩ := List.exists_cons_of_ne_nil hdrop
  have hum : u ∈ words := (List.drop_sublist j words).mem (by rw [hu]; exact List.mem_cons_self u rest)
  obtain ⟨hune, huws⟩ := hwords u hum
  obtain ⟨m', rfl⟩ : ∃ m', m = m' + 1 := ⟨m - 1, by omega⟩
  rw [hu, List.take_cons (by omega : 0 < m' + 1)]
  have hhead : u.head hune ∈ u := List.head_mem hune
  exact trimStr_ne_nil (mem_intercalate_head hhead _) (huws _ hhead)

lemma spans_drop_flatten (words : List (List Char)) (w s o : Nat)
    (hs : 1 ≤ s) (hsw : s ≤ w) (ho : o = w - s) :
    ∀ j, j < words.length →
      (((spansFrom words.length w s j).map (sliceTokens words)).map (List.drop o)).flatten
        = words.drop (j + o) := by
  have H : ∀ m j, words.length - j ≤ m → j < words.length →
      (((spansFrom words.length w s j).map (sliceTokens words)).map (List.drop o)).flatten
        = words.drop (j + o) := by
    intro m
    induction m with
    | zero => intro j hm hj; omega
    | succ m ih =>
      intro j hm hj
      rw [spansFrom, dif_pos hj]
      by_cases hend : words.length ≤ j + w
      · rw [if_pos hend]
        simp only [List.map_cons, List.map_nil, List.flatten_cons, List.flatten_nil,
          List.append_nil, sliceTokens]
        rw [List.take_of_length_le (by simp), List.drop_drop]
      · rw [if_neg hend]
        rw [Nat.max_eq_left hs]
        simp only [List.map_cons, List.flatten_cons, sliceTokens]
        rw [ih (j + s) (by omega) (by omega)]
        have h1 : j + w - j = w := by omega
        rw [h1, List.drop_take, List.drop_drop]
        have h2 : w - o = s := by omega
        have h3 : List.drop (j + s + o) words = List.drop s (List.drop (j + o) words) := by
          rw [List.drop_drop]
          congr 1
          omega
        rw [h2, h3, List.take_append_drop]
  intro j hj
  exact H (words.length - j) j le_rfl hj

lemma spans_dedup (words : List (List Char)) (w s o : Nat)
    (hs : 1 ≤ s) (hsw : s ≤ w) (ho : o = w - s) (h0 : 0 < words.length) :
    dedupConcat o ((spansFrom words.length w s 0).map (sliceTokens words)) = words := by
  rw [spansFrom, dif_pos h0]
  by_cases hend : words.length ≤ 0 + w
  · rw [if_pos hend]
    simp only [List.map_cons, List.map_nil, dedupConcat, List.map_nil, List.flatten_nil,
      List.append_nil, sliceTokens]
    simp
  · rw [if_neg hend]
    rw [Nat.max_eq_left hs]
    simp only [List.map_cons, dedupConcat, sliceTokens, Nat.zero_add, Nat.sub_zero,
      List.drop_zero]
    rw [spans_drop_flatten words w s o hs hsw ho s (by omega)]
    have h1 : s + o = w := by omega
    rw [h1]
    exact List.take_append_drop w words

lemma spans_ends (n w s : Nat) (hs : 1 ≤ s) (hsw : s ≤ w) :
    ∀ j, j < n →
      spansFrom n w s j ≠ [] ∧
      ((spansFrom n w s j).map Prod.snd).getLast? = some n ∧
      ∀ e ∈ ((spansFrom n w s j).map Prod.snd).dropLast, e < n := by
  have H : ∀ m j, n - j ≤ m → j < n →
      spansFrom n w s j ≠ [] ∧
      ((spansFrom n w s j).map Prod.snd).getLast? = some n ∧
      ∀ e ∈ ((spansFrom n w s j).map Prod.snd).dropLast, e < n := by
    intro m
    induction m with
    | zero => intro j hm hj; omega
    | succ m ih =>
      intro j hm hj
      rw [spansFrom, dif_pos hj]
      by_cases hend : n ≤ j + w
      · rw [if_pos hend]
        refine ⟨List.cons_ne_nil _ _, ?_, ?_⟩
        · simp
        · simp
      · rw [if_neg hend]
        rw [Nat.max_eq_left hs]
        obtain ⟨hne, hlast, hmem⟩ := ih (j + s) (by omega) (by omega)
        have hmapne : (spansFrom n w s (j + s)).map Prod.snd ≠ [] := by
          simpa using hne
        refine ⟨List.cons_ne_nil _ _, ?_, ?_⟩
        · simp only [List.map_cons, List.getLast?_cons, hlast]
          rfl
        · simp only [List.map_cons]
          rw [List.dropLast_cons_of_ne_nil hmapne]
          intro e he
          rcases List.mem_cons.mp he with he | he
          · omega
          · exact hmem e he
  intro j hj
  exact H (n - j) j le_rfl hj

lemma chunkLoop_eq_spans (words : List (List Char)) (w o : Nat) (hw : 1 ≤ w) (ho : o < w)
    (hwords : ∀ u ∈ words, u ≠ [] ∧ ∀ c ∈ u, isWs c = false) :
    ∀ fuel j, words.length - j < fuel →
      chunkLoop fuel words w o j
        = some ((spansFrom words.length w (w - o) j).map (renderSpan words)) := by
  intro fuel
  induction fuel with
  | zero => intro j h; omega
  | succ fuel ih =>
    intro j hfuel
    by_cases hj : j < words.length
    · rw [spansFrom, dif_pos hj]
      by_cases hend : words.length ≤ j + w
      · have hmin : min (j + w) words.length = words.length := min_eq_right hend
        have htrim := trim_slice_ne words hwords j (words.length - j) hj (by omega)
        rw [if_pos hend]
        simp only [chunkLoop, if_pos hj, hmin, le_refl, if_pos, if_true]
        rw [if_neg htrim]
        simp [renderSpan, sliceTokens, hmin]
      · have hmin : min (j + w) words.length = j + w := min_eq_left (by omega)
        have hc : j + w - j = w := by omega
        have htrim := trim_slice_ne words hwords j w hj hw
        have hrec := ih (j + (w - o)) (by omega)
        rw [if_neg hend]
        rw [Nat.max_eq_left (show 1 ≤ w - o by omega)]
        simp only [chunkLoop, if_pos hj, hmin, if_neg hend, hrec, hc]
        rw [if_neg htrim]
        simp [renderSpan, sliceTokens, hc]
    · have h1 : ¬ j < words.length := hj
      rw [spansFrom, dif_neg h1]
      simp only [chunkLoop, if_neg h1, List.map_nil]

lemma chunkLoop_zero_step (words : List (List Char)) (w o i : Nat)
    (hstep : w - o = 0) (hi : i < words.length) (hw : i + w < words.length) :
    ∀ fuel, chunkLoop fuel words w o i = none := by
  intro fuel
  induction fuel with
  | zero => rfl
  | succ fuel ih =>
    have he : ¬ (words.length ≤ min (i + w) words.length) := by
      have : min (i + w) words.length = i + w := min_eq_left (le_of_lt hw)
      omega
    simp only [chunkLoop, if_pos hi, if_neg he, hstep, Nat.add_zero, ih]

/-- C1: the claim that `chunk_text` terminates for every `overlap ≥
window_size` (step floor of one token) is violated by the code: the loop
step is `chunk_size.saturating_sub(overlap)`, which is `0` there, so on the
eleven-word input with `chunk_size = 10`, `overlap = 50` the window start
never advances and the loop never terminates (for every fuel bound the loop
is still running). -/
theorem chunk_text_diverges :
    (∀ fuel, chunkLoop fuel (splitWs loopText) 10 50 0 = none) ∧
    chunk_text loopText 10 50 = none := by
  have hlen : (splitWs loopText).length = 11 := by decide
  have key : ∀ fuel, chunkLoop fuel (splitWs loopText) 10 50 0 = none :=
    chunkLoop_zero_step _ 10 50 0 rfl (by omega) (by omega)
  refine ⟨key, ?_⟩
  have hne : ¬ (splitWs loopText = []) := by decide
  simp only [chunk_text, if_neg hne, key]

/-- C7: for every input text, window size `w ≥ 1` and overlap `o < w`,
`chunk_text` emits exactly the whitespace-token slices
`[i, min (i + w) n)` joined by single spaces for the start indices
`0, w - o, 2(w - o), …`, stopping at the first window whose end reaches the
token count; the windows' concatenation de-duplicating the `o`-token overlap
reconstructs the token sequence; the last window's end equals the token
count and no other window's end does; empty input yields an empty chunk
list. -/
theorem chunk_text_windows (text : List Char) (w o : Nat) (hw : 1 ≤ w) (ho : o < w) :
    chunk_text text w o
      = some ((spansFrom (splitWs text).length w (w - o) 0).map (renderSpan (splitWs text))) ∧
    (splitWs text = [] → chunk_text text w o = some []) ∧
    (splitWs text ≠ [] →
      dedupConcat o
          ((spansFrom (splitWs text).length w (w - o) 0).map (sliceTokens (splitWs text)))
        = splitWs text ∧
      ((spansFrom (splitWs text).length w (w - o) 0).map Prod.snd).getLast?
        = some (splitWs text).length ∧
      ((spansFrom (splitWs text).length w (w - o) 0).map Prod.snd).count
          (splitWs text).length = 1) := by
  have hs : 1 ≤ w - o := by omega
  have hsw : w - o ≤ w := Nat.sub_le w o
  have ho' : o = w - (w - o) := by omega
  refine ⟨?_, ?_, ?_⟩
  · by_cases hnil : splitWs text = []
    · rw [hnil]
      have h0 : ¬ (0 : Nat) < ([] : List (List Char)).length := by simp
      rw [spansFrom, dif_neg h0]
      simp [chunk_text, hnil]
    · rw [chunk_text]
      simp only [if_neg hnil]
      exact chunkLoop_eq_spans (splitWs text) w o hw ho (splitWs_words text) _ 0 (by omega)
  · intro h
    simp [chunk_text, h]
  · intro hne
    have h0 : 0 < (splitWs text).length := List.length_pos.mpr hne
    obtain ⟨hspne, hlast, hmem⟩ := spans_ends (splitWs text).length w (w - o) hs hsw 0 h0
    refine ⟨spans_dedup (splitWs text) w (w - o) o hs hsw ho' h0, hlast, ?_⟩
    set ends := (spansFrom (splitWs text).length w (w - o) 0).map Prod.snd with hends
    have hendsne : ends ≠ [] := by
      rw [hends]
      simpa using hspne
    have hgl : ends.getLast hendsne = (splitWs text).length := by
      have := List.getLast?_eq_getLast ends hendsne
      rw [this] at hlast
      exact Option.some_injective _ hlast
    have hsplit : ends.dropLast ++ [(splitWs text).length] = ends := by
      rw [← hgl]
      exact List.dropLast_append_getLast hendsne
    rw [← hsplit, List.count_append]
    have hzero : ends.dropLast.count (splitWs text).length = 0 := by
      rw [List.count_eq_zero]
      intro hmem2
      exact absurd (hmem _ hmem2) (by omega)
    rw [hzero]
    simp

/-- Witness for C7 at the four-token text `"aa b c dd"`, window `2`,
overlap `1`. -/
theorem chunk_text_windows_witness :
    chunk_text "aa b c dd".data 2 1
      = some ((spansFrom (splitWs "aa b c dd".data).length 2 (2 - 1) 0).map
          (renderSpan (splitWs "aa b c dd".data))) ∧
    (splitWs "aa b c dd".data = [] → chunk_text "aa b c dd".data 2 1 = some []) ∧
    (splitWs "aa b c dd".data ≠ [] →
      dedupConcat 1
          ((spansFrom (splitWs "aa b c dd".data).length 2 (2 - 1) 0).map
            (sliceTokens (splitWs "aa b c dd".data)))
        = splitWs "aa b c dd".data ∧
      ((spansFrom (splitWs "aa b c dd".data).length 2 (2 - 1) 0).map Prod.snd).getLast?
        = some (splitWs "aa b c dd".data).length ∧
      ((spansFrom (splitWs "aa b c dd".data).length 2 (2 - 1) 0).map Prod.snd).count
          (splitWs "aa b c dd".data).length = 1) :=
  chunk_text_windows "aa b c dd".data 2 1 (by decide) (by decide)
/-- C2 counterexample: from a state in which the model has already been
loaded once (`modelLoads = 1`), a further embedding call performs another
load (`modelLoads` becomes `2`), refuting the claim that every call after
the first reuses an already-loaded process-wide handle. -/
theorem model_reloaded_every_call :
    get_embeddings_local [['a']] { cacheDirSet := true, modelLoads := 1 }
      = some { cacheDirSet := true, modelLoads := 2 } ∧ (2 : Nat) ≠ 1 :=
  ⟨rfl, by decide⟩

/-- C2 amended: only the cache directory is a process-wide single-assignment
resource; the embedding model itself is constructed anew by every embedding
call with a non-empty batch (one model load per call, never reused). -/
theorem model_loaded_per_call (texts : List (List Char)) (s : EmbedState)
    (ht : texts ≠ []) (hc : s.cacheDirSet = true) :
    get_embeddings_local texts s = some { s with modelLoads := s.modelLoads + 1 } := by
  unfold get_embeddings_local create_embedding_model
  rw [if_neg ht, if_pos hc]

/-- Witness for the amended C2 at a concrete one-text batch. -/
theorem model_loaded_per_call_witness :
    get_embeddings_local [['a']] { cacheDirSet := true, modelLoads := 0 }
      = some { cacheDirSet := true, modelLoads := 1 } :=
  model_loaded_per_call [['a']] { cacheDirSet := true, modelLoads := 0 } (by decide) rfl

/-- C3 counterexample: on a failed write, `store_chunks` leaves the store
file partially written (`corrupt`), not in its previous valid state,
because it overwrites `chunks.json` in place rather than writing to a
temporary file and renaming. -/
theorem store_write_failure_corrupts :
    store_chunks
        (some (FileData.valid [{ content := ['x'], filename := ['f'], embedding := [1] }]))
        ['g'] [['y']] (some [[1]]) false
      = (some FileData.corrupt, false) ∧
    some FileData.corrupt
      ≠ some (FileData.valid [{ content := ['x'], filename := ['f'], embedding := [1] }]) := by
  refine ⟨rfl, ?_⟩
  intro h
  exact FileData.noConfusion (Option.some_injective _ h)

/-- C3 amended: `store_chunks` persists by a direct in-place overwrite of
the store file, so when the write fails the caller gets an error but the
on-disk store is left partially written (`corrupt`) instead of in its
previous valid state; only a failure before the write (for example an
embedding failure) leaves the previous state intact. -/
theorem store_chunks_overwrites_in_place (prev : List Chunk) (f : List Char)
    (texts : List (List Char)) (embeds : List (List ℝ)) (ht : texts ≠ []) :
    store_chunks (some (FileData.valid prev)) f texts (some embeds) false
      = (some FileData.corrupt, false) ∧
    store_chunks (some (FileData.valid prev)) f texts none true
      = (some (FileData.valid prev), false) := by
  constructor
  · simp only [store_chunks, if_neg ht]
    rfl
  · simp only [store_chunks, if_neg ht]

/-- Witness for the amended C3 at a concrete input. -/
theorem store_chunks_overwrites_in_place_witness :
    store_chunks (some (FileData.valid [])) ['f'] [['x']] (some [[1]]) false
      = (some FileData.corrupt, false) ∧
    store_chunks (some (FileData.valid [])) ['f'] [['x']] none true
      = (some (FileData.valid []), false) :=
  store_chunks_overwrites_in_place [] ['f'] [['x']] [[1]] (by decide)

/-- C4 counterexample: when the store file exists but fails to deserialize,
`store_chunks` does not surface an error - `unwrap_or_default` treats the
store as empty and the append succeeds, overwriting the unreadable file
with only the new records. -/
theorem corrupt_store_silently_overwritten :
    deserialize FileData.corrupt = none ∧
    store_chunks (some FileData.corrupt) ['f'] [['x']] (some [[1]]) true
      = (some (FileData.valid [{ content := ['x'], filename := ['f'], embedding := [1] }]),
         true) :=
  ⟨rfl, rfl⟩

/-- C4 amended: the engine surfaces errors except for the specified no-op
cases and except for one path: `store_chunks` swallows a deserialization
failure of an existing store (treating it as empty and overwriting it with
only the new records), while `delete_file_chunks` and `search` do surface a
deserialization failure as an error. -/
theorem append_swallows_deserialize_error (f : List Char) (texts : List (List Char))
    (embeds : List (List ℝ)) (ht : texts ≠ []) :
    store_chunks (some FileData.corrupt) f texts (some embeds) true
      = (some (FileData.valid ((texts.zip embeds).map
          (fun p => { content := p.1, filename := f, embedding := p.2 }))), true) ∧
    (∀ w, (delete_file_chunks (some FileData.corrupt) f w).2 = false) ∧
    (∀ er k, search (some FileData.corrupt) er k = none) := by
  refine ⟨?_, ?_, ?_⟩
  · simp only [store_chunks, if_neg ht]
    rfl
  · intro w
    rfl
  · intro er k
    rfl

/-- Witness for the amended C4 at a concrete input. -/
theorem append_swallows_deserialize_error_witness :
    store_chunks (some FileData.corrupt) ['f'] [['x']] (some [[1]]) true
      = (some (FileData.valid (([['x']].zip [[1]]).map
          (fun p => { content := p.1, filename := ['f'], embedding := p.2 }))), true) ∧
    (∀ w, (delete_file_chunks (some FileData.corrupt) ['f'] w).2 = false) ∧
    (∀ er k, search (some FileData.corrupt) er k = none) :=
  append_swallows_deserialize_error ['f'] [['x']] [[1]] (by decide)

/-- C6: appending to a valid store and loading returns the previous records
followed by exactly one new record per (text, embedding) pair, in order,
tagged with the filename and carrying the same text and embedding; removing
by filename and loading returns the original records minus exactly those
whose filename matches, in their original relative order. -/
theorem store_round_trip (prev : List Chunk) (f : List Char)
    (texts : List (List Char)) (embeds : List (List ℝ))
    (hlen : texts.length = embeds.length) :
    loadStore (store_chunks (some (FileData.valid prev)) f texts (some embeds) true).1
      = some (prev ++ (texts.zip embeds).map
          (fun p => { content := p.1, filename := f, embedding := p.2 })) ∧
    (∀ cs : List Chunk,
      loadStore (delete_file_chunks (some (FileData.valid cs)) f true).1
        = some (cs.filter (fun c => c.filename ≠ f)) ∧
      ∀ c ∈ cs.filter (fun c => c.filename ≠ f), c.filename ≠ f) := by
  constructor
  · by_cases ht : texts = []
    · subst ht
      simp [store_chunks, loadStore, deserialize]
    · simp only [store_chunks, if_neg ht]
      rfl
  · intro cs
    refine ⟨rfl, ?_⟩
    intro c hc
    have := List.mem_filter.mp hc
    simpa using this.2

/-- Witness for C6 at a concrete store of one prior record. -/
theorem store_round_trip_witness :
    loadStore (store_chunks
        (some (FileData.valid [{ content := ['a'], filename := ['g'], embedding := [0] }]))
        ['f'] [['x']] (some [[1]]) true).1
      = some ([{ content := ['a'], filename := ['g'], embedding := [0] }]
          ++ ([['x']].zip [[1]]).map
            (fun p => { content := p.1, filename := ['f'], embedding := p.2 })) ∧
    (∀ cs : List Chunk,
      loadStore (delete_file_chunks (some (FileData.valid cs)) ['f'] true).1
        = some (cs.filter (fun c => c.filename ≠ ['f'])) ∧
      ∀ c ∈ cs.filter (fun c => c.filename ≠ ['f']), c.filename ≠ ['f']) :=
  store_round_trip [{ content := ['a'], filename := ['g'], embedding := [0] }]
    ['f'] [['x']] [[1]] (by decide)

/-- C8: `search` on a bucket whose store file is missing, and on a bucket
whose store holds zero chunk records, returns a successful empty result
list, not an error - in both cases before attempting to embed the query. -/
theorem search_empty_ok (er : Option (List ℝ)) (k : Nat) :
    search none er k = some [] ∧ search (some (FileData.valid [])) er k = some [] :=
  ⟨rfl, rfl⟩

/-- C9: `cosine_similarity` returns exactly `0` whenever either input
vector has zero magnitude (the division by the product of the magnitudes is
guarded and never performed in that case), and for vectors of non-zero
magnitude it returns the dot product divided by the product of the
magnitudes. -/
theorem cosine_zero_guard (a b : List ℝ) :
    ((magnitude a = 0 ∨ magnitude b = 0) → cosine_similarity a b = 0) ∧
    (magnitude a ≠ 0 → magnitude b ≠ 0 →
      cosine_similarity a b = dotList a b / (magnitude a * magnitude b)) := by
  constructor
  · intro h
    rw [cosine_similarity, if_pos h]
  · intro h1 h2
    rw [cosine_similarity, if_neg (by tauto)]

/-- Witness for C9: the zero vector `[0]` has zero magnitude and similarity
`0` against `[1]`; the vector `[1]` has magnitude `1` and the unguarded
quotient form applies. -/
theorem cosine_zero_guard_witness :
    magnitude [(0 : ℝ)] = 0 ∧
    cosine_similarity [(0 : ℝ)] [(1 : ℝ)] = 0 ∧
    magnitude [(1 : ℝ)] ≠ 0 ∧
    cosine_similarity [(1 : ℝ)] [(1 : ℝ)]
      = dotList [(1 : ℝ)] [(1 : ℝ)] / (magnitude [(1 : ℝ)] * magnitude [(1 : ℝ)]) := by
  have h0 : magnitude [(0 : ℝ)] = 0 := by
    simp [magnitude, sumSq]
  have h1 : magnitude [(1 : ℝ)] = 1 := by
    simp [magnitude, sumSq]
  have h1n : magnitude [(1 : ℝ)] ≠ 0 := by
    rw [h1]
    exact one_ne_zero
  exact ⟨h0, (cosine_zero_guard [(0 : ℝ)] [(1 : ℝ)]).1 (Or.inl h0), h1n,
    (cosine_zero_guard [(1 : ℝ)] [(1 : ℝ)]).2 h1n h1n⟩

lemma zip_append_right (a b extra : List ℝ) (h : a.length ≤ b.length) :
    a.zip (b ++ extra) = a.zip b := by
  induction a generalizing b with
  | nil => simp
  | cons x xs ih =>
    cases b with
    | nil => simp at h
    | cons y ys =>
      simp only [List.cons_append, List.zip_cons_cons]
      rw [ih ys (by simp at h; omega)]

lemma sumSq_nonneg (a : List ℝ) : 0 ≤ sumSq a := by
  apply List.sum_nonneg
  intro x hx
  obtain ⟨y, hy, rfl⟩ := List.mem_map.mp hx
  exact mul_self_nonneg y

lemma sumSq_append (a b : List ℝ) : sumSq (a ++ b) = sumSq a + sumSq b := by
  simp [sumSq]

lemma magnitude_nonneg (a : List ℝ) : 0 ≤ magnitude a := Real.sqrt_nonneg _

lemma magnitude_le_append (b extra : List ℝ) : magnitude b ≤ magnitude (b ++ extra) := by
  apply Real.sqrt_le_sqrt
  rw [sumSq_append]
  exact le_add_of_nonneg_right (sumSq_nonneg extra)

lemma sumSq_eq_zero {b : List ℝ} (h : sumSq b = 0) : ∀ y ∈ b, y = 0 := by
  induction b with
  | nil => simp
  | cons y ys ih =>
    have hy : 0 ≤ y * y := mul_self_nonneg y
    have hys : 0 ≤ sumSq ys := sumSq_nonneg ys
    have hsum : y * y + sumSq ys = 0 := by simpa [sumSq] using h
    have hy0 : y * y = 0 := by linarith
    have hys0 : sumSq ys = 0 := by linarith
    intro z hz
    rcases List.mem_cons.mp hz with hz | hz
    · subst hz
      exact mul_self_eq_zero.mp hy0
    · exact ih hys0 z hz

lemma dotList_zero_right {a b : List ℝ} (h : ∀ y ∈ b, y = 0) : dotList a b = 0 := by
  induction a generalizing b with
  | nil => simp [dotList]
  | cons x xs ih =>
    cases b with
    | nil => simp [dotList]
    | cons y ys =>
      have h2 : dotList xs ys = 0 := ih (fun z hz => h z (List.mem_cons_of_mem y hz))
      have h3 : dotList (x :: xs) (y :: ys) = x * y + dotList xs ys := by
        simp [dotList, List.zip_cons_cons]
      rw [h3, h2, h y (List.mem_cons_self y ys), mul_zero, add_zero]

/-- C10: `cosine_similarity` is total on vectors of unequal length - no
error is raised; the dot product only ranges over the shared index prefix
(appending extra components to the longer vector does not change it), while
each magnitude ranges over that vector's full length (extra components
enlarge the sum of squares); consequently the similarity magnitude can only
deflate when one vector carries extra components. -/
theorem cosine_mismatched_lengths (a b extra : List ℝ) (hab : a.length ≤ b.length) :
    dotList a (b ++ extra) = dotList a b ∧
    sumSq (b ++ extra) = sumSq b + sumSq extra ∧
    |cosine_similarity a (b ++ extra)| ≤ |cosine_similarity a b| := by
  have hdot : dotList a (b ++ extra) = dotList a b := by
    unfold dotList
    rw [zip_append_right a b extra hab]
  refine ⟨hdot, sumSq_append b extra, ?_⟩
  by_cases ha : magnitude a = 0
  · rw [cosine_similarity, if_pos (Or.inl ha), cosine_similarity, if_pos (Or.inl ha)]
  · by_cases hb : magnitude b = 0
    · have hb0 : ∀ y ∈ b, y = 0 := by
        apply sumSq_eq_zero
        have h1 := Real.sqrt_eq_zero'.mp hb
        have h2 := sumSq_nonneg b
        unfold magnitude at h1
        linarith
      have hdot0 : dotList a b = 0 := dotList_zero_right hb0
      have hrhs : cosine_similarity a b = 0 := by
        rw [cosine_similarity, if_pos (Or.inr hb)]
      have hlhs : cosine_similarity a (b ++ extra) = 0 := by
        rw [cosine_similarity]
        by_cases hb2 : magnitude (b ++ extra) = 0
        · rw [if_pos (Or.inr hb2)]
        · rw [if_neg (by tauto), hdot, hdot0, zero_div]
      rw [hrhs, hlhs]
    · have hapos : 0 < magnitude a := lt_of_le_of_ne (magnitude_nonneg a) (Ne.symm ha)
      have hbpos : 0 < magnitude b := lt_of_le_of_ne (magnitude_nonneg b) (Ne.symm hb)
      have hb2pos : 0 < magnitude (b ++ extra) :=
        lt_of_lt_of_le hbpos (magnitude_le_append b extra)
      rw [cosine_similarity, if_neg (by push_neg; exact ⟨ha, ne_of_gt hb2pos⟩),
          cosine_similarity, if_neg (by push_neg; exact ⟨ha, hb⟩), hdot,
          abs_div, abs_div, abs_of_pos (mul_pos hapos hb2pos),
          abs_of_pos (mul_pos hapos hbpos)]
      gcongr
      exact magnitude_le_append b extra

/-- Witness for C10 with `a = [1]`, `b = [1]`, `extra = [1]`. -/
theorem cosine_mismatched_lengths_witness :
    dotList [(1 : ℝ)] ([(1 : ℝ)] ++ [(1 : ℝ)]) = dotList [(1 : ℝ)] [(1 : ℝ)] ∧
    sumSq ([(1 : ℝ)] ++ [(1 : ℝ)]) = sumSq [(1 : ℝ)] + sumSq [(1 : ℝ)] ∧
    |cosine_similarity [(1 : ℝ)] ([(1 : ℝ)] ++ [(1 : ℝ)])|
      ≤ |cosine_similarity [(1 : ℝ)] [(1 : ℝ)]| :=
  cosine_mismatched_lengths [(1 : ℝ)] [(1 : ℝ)] [(1 : ℝ)] (by simp)

lemma searchCore_length (chunks : List Chunk) (qe : List ℝ) (topK : Nat) :
    (searchCore chunks qe topK).length ≤ topK := by
  unfold searchCore
  rw [List.length_map]
  refine le_trans (List.length_filter_le _ _) ?_
  rw [List.length_take]
  exact min_le_left _ _

lemma searchCore_scores (chunks : List Chunk) (qe : List ℝ) (topK : Nat) :
    ∀ x ∈ searchCore chunks qe topK, (0.1 : ℝ) < x.score := by
  intro x hx
  unfold searchCore at hx
  obtain ⟨p, hp, rfl⟩ := List.mem_map.mp hx
  exact of_decide_eq_true (List.mem_filter.mp hp).2

lemma searchCore_sorted (chunks : List Chunk) (qe : List ℝ) (topK : Nat) :
    List.Pairwise (fun x y : SearchResult => y.score ≤ x.score)
      (searchCore chunks qe topK) := by
  unfold searchCore
  have hsorted : List.Pairwise (fun p q : Nat × ℝ => q.2 ≤ p.2)
      (List.filter (fun p => decide ((0.1 : ℝ) < p.2))
        (List.take topK
          ((chunks.enum.map (fun p => (p.1, cosine_similarity qe p.2.embedding))).mergeSort
            (fun x y => decide (y.2 ≤ x.2))))) := by
    apply List.Pairwise.sublist
      (List.Sublist.trans (List.filter_sublist _) (List.take_sublist _ _))
    have hs := @List.sorted_mergeSort (Nat × ℝ)
      (fun x y => decide (y.2 ≤ x.2))
      (fun p q t h1 h2 => by
        rw [decide_eq_true_eq] at h1 h2 ⊢
        exact le_trans h2 h1)
      (fun p q => by
        rw [Bool.or_eq_true, decide_eq_true_eq, decide_eq_true_eq]
        exact le_total q.2 p.2)
      (chunks.enum.map (fun p => (p.1, cosine_similarity qe p.2.embedding)))
    exact hs.imp (fun h => of_decide_eq_true h)
  exact List.Pairwise.map _ (fun p q h => h) hsorted

/-- C5: whenever `search` succeeds it returns at most `top_k` results, every
returned result has score strictly greater than `0.1`, and the results are
in descending score order; moreover (filter-after-take-k) a bucket can hold
at least `top_k` records and still produce fewer than `top_k` results, so a
caller must not assume exactly `top_k`. -/
theorem search_topk_floor_sorted (file : Option FileData) (er : Option (List ℝ))
    (k : Nat) (r : List SearchResult) (h : search file er k = some r) :
    (r.length ≤ k ∧ (∀ x ∈ r, (0.1 : ℝ) < x.score) ∧
      List.Pairwise (fun x y : SearchResult => y.score ≤ x.score) r) ∧
    (∃ chunks : List Chunk, ∃ qe : List ℝ,
      1 ≤ chunks.length ∧ searchCore chunks qe chunks.length = []) := by
  constructor
  · have htriv : ∀ s : List SearchResult, s = [] →
        s.length ≤ k ∧ (∀ x ∈ s, (0.1 : ℝ) < x.score) ∧
          List.Pairwise (fun x y : SearchResult => y.score ≤ x.score) s := by
      intro s hs
      subst hs
      exact ⟨by simp, by simp, List.Pairwise.nil⟩
    cases file with
    | none =>
      have : r = [] := by
        rw [search] at h
        exact Option.some_injective _ h.symm
      exact htriv r this
    | some fd =>
      cases fd with
      | corrupt => exact absurd h (by rw [search]; simp [deserialize])
      | valid cs =>
        rw [search] at h
        simp only [deserialize] at h
        by_cases hemp : cs.isEmpty
        · rw [if_pos hemp] at h
          exact htriv r (Option.some_injective _ h.symm)
        · rw [if_neg hemp] at h
          cases er with
          | none => exact absurd h (by simp)
          | some qe =>
            have hr : r = searchCore cs qe k := (Option.some_injective _ h).symm
            subst hr
            exact ⟨searchCore_length cs qe k, searchCore_scores cs qe k,
              searchCore_sorted cs qe k⟩
  · refine ⟨[{ content := [], filename := [], embedding := [(0 : ℝ)] }], [(0 : ℝ)],
      by simp, ?_⟩
    have hscore : cosine_similarity [(0 : ℝ)] [(0 : ℝ)] = 0 := by
      rw [cosine_similarity, if_pos (Or.inl (by simp [magnitude, sumSq]))]
    unfold searchCore
    simp only [List.enum_cons, List.enumFrom, List.map_cons, List.map_nil, hscore,
      List.length_cons, List.length_nil, List.mergeSort_singleton, List.take_succ_cons,
      List.take_nil, List.filter_cons, List.filter_nil]
    rw [decide_eq_false (by norm_num : ¬ ((0.1 : ℝ) < 0))]
    simp

/-- Witness for C5: a successful search on a missing store returns the
empty result, which satisfies all three bounds for `top_k = 5`. -/
theorem search_topk_floor_sorted_witness :
    ((([] : List SearchResult).length ≤ 5 ∧
      (∀ x ∈ ([] : List SearchResult), (0.1 : ℝ) < x.score) ∧
      List.Pairwise (fun x y : SearchResult => y.score ≤ x.score)
        ([] : List SearchResult)) ∧
    (∃ chunks : List Chunk, ∃ qe : List ℝ,
      1 ≤ chunks.length ∧ searchCore chunks qe chunks.length = [])) :=
  search_topk_floor_sorted none none 5 [] rfl
